import Mathlib

/-!
Verification development for the koa-layer matching library.

The definitions below are a shallow embedding of the TypeScript sources:
  * `src/accepts.ts` — content negotiation (`accepts`, `priority`, `flagItem`,
    `compareSpecs`, `isQuality`);
  * `src/index.ts` — the `Layer` class (constructor method/handler collection,
    `method`, `accept`, `match`, `use`, `callback`) and the
    `method_not_allowed` compliance middleware, plus `safeDecodeURIComponent`.

Modelling conventions:
  * JS numbers used for qualities are modelled as `ℚ`; bit flags as `Nat`.
  * JS `Set<string>` (insertion ordered, deduplicated) is a dup-free `List`.
  * Regular-expression machinery (`path-to-regexp` compilation, the header
    grammar of `parseHeader` / `matchSingleRegex`) is modelled at its output:
    a compiled pattern is a test predicate plus a capture extractor, a parsed
    `Accept` header is the list of its parsed specs, and an offered media type
    is its `type/subtype` pair.  `decodeURIComponent` is modelled as an
    arbitrary partial function `String → Option String` (`none` = the JS call
    throws); the theorems quantify over it.
  * Asynchronous middleware execution is single-threaded and cooperative in
    koa, so it is modelled by direct state passing in continuation style.
-/

/-- One parsed media-type spec, after `parseItem` of `src/accepts.ts`:
`type`, `sub_type`, `full_type`, `quality`, parameter map, matching flags,
input index, and `other_index` (index of the best matching accept-spec,
set by `priority`; `-1` before any match). -/
structure ParsedHeader where
  type : String
  sub_type : String
  full_type : String
  quality : ℚ
  params : List (String × String)
  flags : Nat
  index : Nat
  other_index : Int
  deriving DecidableEq, Repr

attribute [local semireducible] Rat.add Rat.sub Rat.mul Rat.inv

/-- JS `String.prototype.toLowerCase` on ASCII media-type tokens: lower-case
every character.  (Defined by a structural character map so that concrete
negotiation runs reduce inside the kernel.) -/
def jsToLower (s : String) : String := String.mk (s.data.map Char.toLower)

/-- JS `String.prototype.toUpperCase` on ASCII method tokens: upper-case
every character (structural character map, see `jsToLower`). -/
def jsToUpper (s : String) : String := String.mk (s.data.map Char.toUpper)

/-- JS bracket access `item.params[k]` on a `Map` object never reads the
entries (that needs `.get`), so it yields `undefined`; the source then
coerces it with `|| ''`.  Faithful embedding: always the empty string. -/
def jsMapBracketGet (_ : List (String × String)) (_ : String) : String := ""

/-- `flagItem` of `src/accepts.ts`: match an offered item against one
accept-spec `ref`, returning the combined `MatchingFlag` bits, or `none`
(JS `undefined` via early `return`) when the spec rules the item out.
`MatchingFlag` is the enum `NONE=0, PARAMS=1, SUBTYPE=2, TYPE=3`, combined
with bitwise or. -/
def flagItem (item ref : ParsedHeader) : Option Nat :=
  (if jsToLower ref.type = jsToLower item.type then some (0 ||| 3)
   else if ref.type ≠ "*" then none else some 0).bind fun f1 =>
  (if jsToLower ref.sub_type = jsToLower item.sub_type then some (f1 ||| 2)
   else if ref.sub_type ≠ "*" then none else some f1).bind fun f2 =>
  if ref.params.isEmpty then some f2
  else if ref.params.all
      (fun kv => kv.2 = "*" ∨ jsToLower kv.2 = jsToLower (jsMapBracketGet item.params kv.1))
  then some (f2 ||| 1)
  else none

/-- JS `x || y` on numbers: `x` when non-zero, else `y`. -/
def jsOr (x y : ℚ) : ℚ := if x ≠ 0 then x else y

/-- `priority` of `src/accepts.ts`: fold the parsed accept-specs over an
offered item, upgrading its `flags`/`quality`/`other_index` whenever a spec
matches and the JS condition
`(item.flags - flag || item.quality - accepted.quality || item.other_index - accepted.index) < 0`
holds.  `other_index` is initialised to `-1`. -/
def priority (item : ParsedHeader) (ref : List ParsedHeader) : ParsedHeader :=
  ref.foldl
    (fun it accepted =>
      match flagItem it accepted with
      | none => it
      | some flag =>
        if jsOr ((it.flags : ℚ) - (flag : ℚ))
            (jsOr (it.quality - accepted.quality)
              ((it.other_index : ℚ) - (accepted.index : ℚ))) < 0 then
          { it with flags := flag, quality := accepted.quality,
                    other_index := (accepted.index : Int) }
        else it)
    { item with other_index := -1 }

/-- `isQuality` of `src/accepts.ts`: keep only strictly positive quality. -/
def isQuality (parsed : ParsedHeader) : Bool := 0 < parsed.quality

/-- `compareSpecs` of `src/accepts.ts`:
`(b.quality - a.quality) || (b.flags - a.flags) || (a.other_index - b.other_index) || (a.index - b.index) || 0`. -/
def compareSpecs (a b : ParsedHeader) : ℚ :=
  jsOr (b.quality - a.quality)
    (jsOr ((b.flags : ℚ) - (a.flags : ℚ))
      (jsOr ((a.other_index : ℚ) - (b.other_index : ℚ))
        (jsOr ((a.index : ℚ) - (b.index : ℚ)) 0)))

/-- The ordering induced by the `compareSpecs` comparator: `a` may precede
`b` exactly when `compareSpecs a b ≤ 0`. -/
def specsLe (a b : ParsedHeader) : Prop := compareSpecs a b ≤ 0

instance : DecidableRel specsLe :=
  fun a b => inferInstanceAs (Decidable (compareSpecs a b ≤ 0))

/-- The result of `parseItem(matchSingleRegex.exec(p.trim()), i, 0)` for an
offered type `p` already split as `type/subtype`: no parameters, quality
explicitly `0`, flags `0`. -/
def parseItemOffered (p : String × String) (i : Nat) : ParsedHeader :=
  { type := p.1, sub_type := p.2, full_type := p.1 ++ "/" ++ p.2,
    quality := 0, params := [], flags := 0, index := i, other_index := 0 }

/-- `accepts(header, provided)` of `src/accepts.ts`, for a present iterable
`provided`: each offered type is parsed, prioritised against the parsed
header specs, filtered by `isQuality` and sorted by `compareSpecs`.
`Array.prototype.sort` with a consistent comparator is a stable sort, and
`List.insertionSort` is stable, so the two produce the same list. -/
def accepts (accepted : List ParsedHeader) (provided : List (String × String)) :
    List ParsedHeader :=
  List.insertionSort specsLe
    ((provided.enum.map (fun ip => priority (parseItemOffered ip.2 ip.1) accepted)).filter
      (fun p => isQuality p))

/-- JS `Set.add` keeps insertion order and ignores duplicates. -/
def jsSetAdd (s : List String) (x : String) : List String :=
  if x ∈ s then s else s ++ [x]

/-- A `string | Iterable<string>`-typed option field.  `iter` entries are
`none` when the iterated value is not a string (the source skips those). -/
inductive StrField where
  | undef
  | str (s : String)
  | iter (items : List (Option String))

/-- Collection of the accepted HTTP methods in the `Layer` constructor
(`src/index.ts` lines 92–104, 149–152): uppercase the singular `method`
option, then the `methods` option (string, or the string entries of an
iterable), and finally add `HEAD` whenever `GET` is present. -/
def buildMethods (method : Option String) (methods : StrField) : List String :=
  let s := match method with
    | some m => jsSetAdd [] (jsToUpper m)
    | none => []
  let s := match methods with
    | .undef => s
    | .str m => jsSetAdd s (jsToUpper m)
    | .iter items =>
      items.foldl
        (fun acc it => match it with
          | some m => jsSetAdd acc (jsToUpper m)
          | none => acc) s
  if s.contains "GET" then jsSetAdd s "HEAD" else s

/-- `Layer#method` (`src/index.ts` lines 210–212):
`!this.methods.size || this.methods.has(method)`. -/
def layerMethod (methods : List String) (m : String) : Bool :=
  methods.isEmpty || methods.contains m

/-- A JS runtime value as seen by the constructor / `use`: a function of a
given declared arity (`Function.length`), or any other value. -/
inductive JsVal where
  | fn (arity : Nat)
  | other (tag : String)
  deriving DecidableEq, Repr

/-- `typeof v === 'function'`. -/
def JsVal.isFn : JsVal → Bool
  | .fn _ => true
  | .other _ => false

/-- `v.length`, the declared arity (only read on functions). -/
def JsVal.jsLength : JsVal → Nat
  | .fn n => n
  | .other _ => 0

/-- A `Middleware | Iterable<Middleware>`-typed option field. -/
inductive HandlersField where
  | undef
  | single (v : JsVal)
  | iter (items : List JsVal)

/-- Collection of the handler stack in the `Layer` constructor
(`src/index.ts` lines 128–141): push the `handler` option if it is a
function, then the `handlers` option if it is a function, else the
function entries of the iterable. -/
def collectStack (handler : Option JsVal) (handlers : HandlersField) : List JsVal :=
  let s := match handler with
    | some v => if v.isFn then [v] else []
    | none => []
  match handlers with
  | .undef => s
  | .single v => if v.isFn then s ++ [v] else s
  | .iter items => s ++ items.filter (fun v => v.isFn)

/-- The constructor's handler validation (`src/index.ts` lines 154–161):
after collecting, walk the stack and throw on the first entry whose
`typeof` is not `'function'`.  The throw is modelled as `Except.error`. -/
def mkStack (handler : Option JsVal) (handlers : HandlersField) :
    Except String (List JsVal) :=
  let stack := collectStack handler handlers
  if stack.all (fun v => v.isFn) then Except.ok stack
  else Except.error "middleware must be a funciton"

/-- `Layer#use` (`src/index.ts` lines 263–271): append all handles if every
one is a function of declared arity strictly between 0 and 3, else leave
the stack untouched; always returns normally. -/
def use (stack : List JsVal) (handles : List JsVal) : List JsVal :=
  if handles.all (fun h => h.isFn && decide (0 < h.jsLength) && decide (h.jsLength < 3))
  then stack ++ handles
  else stack

/-- `safeDecodeURIComponent` (`src/index.ts` lines 449–455), with the host
`decodeURIComponent` abstracted as `dec` (`none` = the JS call throws):
return the decoded value, or the original component when decoding throws. -/
def safeDecodeURIComponent (dec : String → Option String) (component : String) : String :=
  match dec component with
  | some s => s
  | none => component

/-- A key of the per-request parameter map: a named key (`key.name.toString()`)
or the numeric key `0` used by the `*` fast path. -/
abbrev PKey := String ⊕ Nat

/-- One `ContextStateLayerEntry` (`src/index.ts` lines 34–41).  `layer_methods`
stands for the `layer` back-reference, keeping exactly what the
`method_not_allowed` walk reads from it (`layer.method`); `matched` is the
source's `match` field (a Lean keyword); `idx` its `index` field. -/
structure Entry where
  accepted : Option (List ParsedHeader)
  idx : Nat
  layer_methods : List String
  length : Int
  matched : Bool
  params : Option (List (PKey × Option String))
  deriving DecidableEq, Repr

/-- The per-request koa context state the embedded code touches: request
descriptor (`method`, `path`, parsed `accept` header, `httpVersion`),
the shared trace `layers` (`ctx.state.layers`), the parameter object
`ctx.params`, and the response (`body`, `status`, `headerSent`, headers).
A koa response starts with status 404 and no body; assigning a body sets
status 200. -/
structure Ctx where
  method : String
  path : String
  accept : List ParsedHeader
  httpVersion : String
  layers : List Entry
  params : List (PKey × Option String)
  body : Option String
  status : Nat
  headerSent : Bool
  resHeaders : List (String × String)
  deriving DecidableEq, Repr

/-- The immutable per-`Layer` configuration assembled by the constructor:
normalized path (`none` when no path was configured), the capture-slot
names from `path-to-regexp`, the compiled regexp modelled as a test
predicate `rtest` and a capture extractor `rexec`
(`regexp.exec(path).slice(1)`), the method set, the accepted types parsed
as `type/subtype` pairs, and the optional `conditional` guard. -/
structure LayerRec where
  path : Option String
  keys : List String
  rtest : String → Bool
  rexec : String → List (Option String)
  methods : List String
  laccepts : List (String × String)
  conditional : Option (Ctx → Bool)

/-- `this.single_star = '*' === this.path` (`src/index.ts` line 164). -/
def LayerRec.single_star (cfg : LayerRec) : Bool := cfg.path = some "*"

/-- `this.no_params = !this.single_star && !this.keys.length` (line 165). -/
def LayerRec.no_params (cfg : LayerRec) : Bool :=
  !cfg.single_star && cfg.keys.isEmpty

/-- `Layer#match` (`src/index.ts` lines 168–208): `none` models the JS
`return;` (undefined = no match).  With no configured path every path
matches with an empty map; an empty path never matches; a missing leading
slash is prefixed; the `*` fast path binds key `0` to the decoded path;
otherwise test the regexp, use the no-capture fast path, or decode each
capture positionally (`capture ? safeDecodeURIComponent(capture) : capture`;
an empty or absent capture is kept as is). -/
def layerMatch (dec : String → Option String) (cfg : LayerRec) (path : String) :
    Option (List (PKey × Option String)) :=
  match cfg.path with
  | none => some []
  | some _ =>
    if path = "" then none
    else
      let path := if path.front = '/' then path else "/" ++ path
      if cfg.single_star then some [(Sum.inr 0, some (safeDecodeURIComponent dec path))]
      else if ¬ cfg.rtest path then none
      else if cfg.no_params then some []
      else some ((cfg.keys.zip (cfg.rexec path)).map (fun kc =>
        (Sum.inl kc.1,
          match kc.2 with
          | some cap => if cap = "" then some cap else some (safeDecodeURIComponent dec cap)
          | none => none)))

/-- `Layer#accept` (`src/index.ts` lines 214–220).  The source returns a
`ParsedHeader[]` on every path — `[]` when no accepted types are
configured, else `accepts(header, this.accepts)` — so the result is always
`some`; `none` stands for a JS falsy value, which this function never
produces. -/
def layerAccept (laccepts : List (String × String)) (header : List ParsedHeader) :
    Option (List ParsedHeader) :=
  if laccepts.isEmpty then some []
  else some (accepts header laccepts)

/-- JS truthiness of the response body: set and not the empty string. -/
def jsBodyTruthy : Option String → Bool
  | none => false
  | some s => s ≠ ""

/-- `ctx.params[k] = v` on the parameter object: overwrite an existing key
in place, else append. -/
def objSet (o : List (PKey × Option String)) (k : PKey) (v : Option String) :
    List (PKey × Option String) :=
  if o.any (fun kv => kv.1 = k) then
    o.map (fun kv => if kv.1 = k then (k, v) else kv)
  else o ++ [(k, v)]

/-- The merge loop `for (const [k, v] of params) ctx.params[k] = v`
(`src/index.ts` lines 351–355). -/
def mergeParams (o : List (PKey × Option String)) (ps : List (PKey × Option String)) :
    List (PKey × Option String) :=
  ps.foldl (fun acc kv => objSet acc kv.1 kv.2) o

/-- `layers[index].length = ...`: positional update of one trace entry. -/
def setEntryLength (es : List Entry) (i : Nat) (len : Int) : List Entry :=
  es.mapIdx (fun j e => if j = i then { e with length := len } else e)

/-- The non-matching trace entry pushed by `skip()` (`src/index.ts`
lines 307–317): `index` is the current trace length, `length` 0,
`match` false. -/
def skipEntry (cfg : LayerRec) (n : Nat) (params : Option (List (PKey × Option String))) :
    Entry :=
  { accepted := none, idx := n, layer_methods := cfg.methods, length := 0,
    matched := false, params := params }

/-- `cfg.conditional && !(await cfg.conditional(ctx))` gate: pass when no
guard is configured or the guard returns true. -/
def condPass (cfg : LayerRec) (ctx : Ctx) : Bool :=
  match cfg.conditional with
  | none => true
  | some f => f ctx

mutual
/-- A middleware of the host pipeline: either a plain handler — modelled by
the body/status it assigns and whether it calls its continuation — or the
`callback()` of a `Layer` over a nested handler stack. -/
inductive MW where
  | handler (setBody : Option String) (setStatus : Option Nat) (callsNext : Bool)
  | layer (cfg : LayerRec) (stack : MWList)
/-- A handler stack (a `List MW`, mutually inductive so the pipeline
semantics is structurally recursive). -/
inductive MWList where
  | nil
  | cons (m : MW) (ms : MWList)
end

mutual
/-- Pipeline semantics of one middleware in continuation style.  A handler
applies its assignments (a body assignment sets status 200) and calls the
continuation or not.  A `Layer.callback()` middleware follows
`src/index.ts` lines 319–362: gates in order — method, conditional, path
match, accept — each failure appending a `skip` entry and continuing; on
success it appends a matching entry with `length := -1`, merges the path
parameters, and composes its stack with a wrapped continuation that
finalizes `layers[index].length = layers.length - index - 1` before the
outer continuation.  Nothing after `compose(...)` runs in the source, so a
stack that never calls its continuation leaves `length` at `-1`. -/
def runMW (dec : String → Option String) : MW → Ctx → (Ctx → Ctx) → Ctx
  | .handler setBody setStatus callsNext, ctx, next =>
    let c1 := match setBody with
      | some b => { ctx with body := some b, status := 200 }
      | none => ctx
    let c2 := match setStatus with
      | some s => { c1 with status := s }
      | none => c1
    if callsNext then next c2 else c2
  | .layer cfg stack, ctx, next =>
    if ¬ layerMethod cfg.methods ctx.method then
      next { ctx with layers := ctx.layers ++ [skipEntry cfg ctx.layers.length none] }
    else if ¬ condPass cfg ctx then
      next { ctx with layers := ctx.layers ++ [skipEntry cfg ctx.layers.length none] }
    else
      match layerMatch dec cfg ctx.path with
      | none =>
        next { ctx with layers := ctx.layers ++ [skipEntry cfg ctx.layers.length none] }
      | some params =>
        match layerAccept cfg.laccepts ctx.accept with
        | none =>
          next { ctx with
            layers := ctx.layers ++ [skipEntry cfg ctx.layers.length (some params)] }
        | some accepted =>
          let index := ctx.layers.length
          let ctx1 := { ctx with
            layers := ctx.layers ++
              [{ accepted := some accepted, idx := index, layer_methods := cfg.methods,
                 length := -1, matched := true, params := some params }],
            params := mergeParams ctx.params params }
          runStack dec stack ctx1 (fun c =>
            next { c with
              layers := setEntryLength c.layers index
                ((c.layers.length : Int) - (index : Int) - 1) })
/-- `koa-compose` over a handler stack: each middleware receives the next
one as continuation; the empty stack invokes the outer continuation. -/
def runStack (dec : String → Option String) : MWList → Ctx → (Ctx → Ctx) → Ctx
  | .nil, ctx, next => next ctx
  | .cons m ms, ctx, next => runMW dec m ctx (fun c => runStack dec ms c next)
end

/-- A whole koa pipeline run: the middlewares in order, with the identity
continuation at the end (koa then renders the context as the response). -/
def runApp (dec : String → Option String) (app : MWList) (ctx : Ctx) : Ctx :=
  runStack dec app ctx (fun c => c)

/-- `const head_or_get = new Set(['HEAD', 'GET'])` (`src/index.ts` line 28). -/
def head_or_get : List String := ["HEAD", "GET"]

/-- A single-quote character, used in the 405 body text. -/
def squote : String := (Char.ofNat 39).toString

/-- The trace walk of `Layer.method_not_allowed` (`src/index.ts`
lines 409–428), instrumented: fold over the recorded entries with the
`skip` counter, returning the `allowed` flag together with the indices of
the entries that were evaluated at the top level (not consumed by `skip`,
reached before the `break`).  An evaluated entry whose layer does not
accept the method breaks with `allowed = false`; an evaluated entry with
`length > 0 && index + length < layers.length` sets `skip = length`. -/
def mnaWalk (m : String) (total : Nat) : List Entry → Nat → Bool × List Nat
  | [], _ => (true, [])
  | e :: rest, skip =>
    if 0 < skip then mnaWalk m total rest (skip - 1)
    else if ¬ layerMethod e.layer_methods m then (false, [e.idx])
    else if 0 < e.length ∧ (e.idx : Int) + e.length < (total : Int) then
      let r := mnaWalk m total rest e.length.toNat
      (r.1, e.idx :: r.2)
    else
      let r := mnaWalk m total rest 0
      (r.1, e.idx :: r.2)

/-- The body of `Layer.method_not_allowed` after `await next()`
(`src/index.ts` lines 400–436): return unchanged when the headers were
sent, a body is set, the status is not 404, or the method is HEAD/GET;
otherwise walk the trace, and when some evaluated layer rejects the
method, set status 405 (400 under HTTP/1.0) and an explanatory body.
No response header is ever written. -/
def method_not_allowed (ctx : Ctx) : Ctx :=
  if ctx.headerSent = true ∨ jsBodyTruthy ctx.body = true ∨ ctx.status ≠ 404 ∨
      ctx.method ∈ head_or_get then ctx
  else if (mnaWalk ctx.method ctx.layers.length ctx.layers 0).1 then ctx
  else
    { ctx with
      status := if ctx.httpVersion = "1.0" then 400 else 405,
      body := some ("Method " ++ squote ++ ctx.method ++ squote ++ " not allowed.") }

/-- The quantity named by the spec's interval-skipping invariant: walk the
trace, and for each top-level entry add `1 + span` and skip its `span`
following entries (none when `span ≤ 0`). -/
def topSpanSum : List Entry → Int
  | [] => 0
  | e :: rest => (1 + e.length) + topSpanSum (rest.drop e.length.toNat)
termination_by es => es.length
decreasing_by simp [List.length_drop]; omega

/-- The identity-free model of the host `decodeURIComponent` used by the
concrete runs below: a decoder that always throws.  (The claim theorems
about decoding quantify over arbitrary decoders.) -/
def decNone : String → Option String := fun _ => none

/-- Configuration of `Layer.match({ method: 'post', handler })`: no path, no
accepted types, no guard, method set `{POST}`. -/
def cfgPost : LayerRec :=
  { path := none, keys := [], rtest := fun _ => true, rexec := fun _ => [],
    methods := ["POST"], laccepts := [], conditional := none }

/-- A fresh request context: parsed request data, empty trace and parameter
map, koa's initial response state (status 404, no body, nothing sent). -/
def baseCtx (m : String) : Ctx :=
  { method := m, path := "/", accept := [], httpVersion := "1.1", layers := [],
    params := [], body := none, status := 404, headerSent := false, resHeaders := [] }

/-- A pipeline holding one `Layer` for `POST` with one terminal handler; the
compliance middleware wraps it (`method_not_allowed` is applied to the
result of running this downstream pipeline). -/
def postApp : MWList :=
  .cons (.layer cfgPost (.cons (.handler (some "post") none false) .nil)) .nil

/-- Configuration of a fully unconstrained `Layer` (matches every request). -/
def cfgAny : LayerRec :=
  { path := none, keys := [], rtest := fun _ => true, rexec := fun _ => [],
    methods := [], laccepts := [], conditional := none }

/-- A pipeline holding one unconstrained `Layer` whose single handler never
calls its continuation (the 501 scenario of the test suite). -/
def termApp : MWList :=
  .cons (.layer cfgAny (.cons (.handler none none false) .nil)) .nil

/-- The parsed form of the request header `Accept: application/json`. -/
def jsonAccept : ParsedHeader :=
  { type := "application", sub_type := "json", full_type := "application/json",
    quality := 1, params := [], flags := 0, index := 0, other_index := 0 }

/-- Configuration of a `Layer` with `accepts: ['text/html']` and no other
constraint. -/
def cfgHtmlOnly : LayerRec :=
  { path := none, keys := [], rtest := fun _ => true, rexec := fun _ => [],
    methods := [], laccepts := [("text", "html")], conditional := none }

/-- A pipeline holding the `text/html`-only `Layer` with one terminal handler
that records that it ran. -/
def htmlOnlyApp : MWList :=
  .cons (.layer cfgHtmlOnly (.cons (.handler (some "handler ran") none false) .nil)) .nil

/-- A request whose `Accept` header offers only `application/json`. -/
def ctxJsonAccept : Ctx := { baseCtx "GET" with accept := [jsonAccept] }

/-- Parsed spec 0 of the header `text/html;q=0.8, application/json`. -/
def exHtml08 : ParsedHeader :=
  { type := "text", sub_type := "html", full_type := "text/html",
    quality := 8/10, params := [], flags := 0, index := 0, other_index := 0 }

/-- Parsed spec 1 of the header `text/html;q=0.8, application/json`. -/
def exJson1 : ParsedHeader :=
  { type := "application", sub_type := "json", full_type := "application/json",
    quality := 1, params := [], flags := 0, index := 1, other_index := 0 }

/-- Parsed spec 0 of the header `application/json, text/html`. -/
def exJsonA : ParsedHeader :=
  { type := "application", sub_type := "json", full_type := "application/json",
    quality := 1, params := [], flags := 0, index := 0, other_index := 0 }

/-- Parsed spec 1 of the header `application/json, text/html`. -/
def exHtmlB : ParsedHeader :=
  { type := "text", sub_type := "html", full_type := "text/html",
    quality := 1, params := [], flags := 0, index := 1, other_index := 0 }

/-- The ordering claimed by the spec for negotiation results (C7): quality
descending, then flag-specificity descending, then original offered order
ascending as the final tie-break.  This definition follows the claim's
words; it is compared against the behaviour of `accepts`. -/
def specClaimedOrder (a b : ParsedHeader) : Prop :=
  b.quality < a.quality ∨
    (b.quality = a.quality ∧
      (b.flags < a.flags ∨ (b.flags = a.flags ∧ a.index ≤ b.index)))

instance : DecidableRel specClaimedOrder :=
  fun a b => inferInstanceAs
    (Decidable (b.quality < a.quality ∨
      (b.quality = a.quality ∧
        (b.flags < a.flags ∨ (b.flags = a.flags ∧ a.index ≤ b.index)))))

/-- A matched trace entry at position 0 whose subtree is the single entry
after it (span 1): the trace of a wildcard layer whose nested chain ran one
more layer, followed by nothing else. -/
def c4wE0 : Entry :=
  { accepted := none, idx := 0, layer_methods := [], length := 1,
    matched := true, params := none }

/-- The nested entry recorded inside `c4wE0`'s subtree: a non-matching entry
of a `PUT`-only layer. -/
def c4wE1 : Entry :=
  { accepted := none, idx := 1, layer_methods := ["PUT"], length := 0,
    matched := false, params := none }

theorem jsOr_nonpos_iff (x y : ℚ) : jsOr x y ≤ 0 ↔ (x < 0 ∨ (x = 0 ∧ y ≤ 0)) := by
  unfold jsOr
  split_ifs with h
  · constructor
    · intro hx
      exact Or.inl (lt_of_le_of_ne hx h)
    · rintro (hx | ⟨hx, _⟩)
      · exact le_of_lt hx
      · exact absurd hx h
  · push_neg at h
    simp [h]

theorem specsLe_iff (a b : ParsedHeader) :
    specsLe a b ↔
      (b.quality < a.quality ∨
        (b.quality = a.quality ∧
          ((b.flags : ℚ) < (a.flags : ℚ) ∨
            ((b.flags : ℚ) = (a.flags : ℚ) ∧
              ((a.other_index : ℚ) < (b.other_index : ℚ) ∨
                ((a.other_index : ℚ) = (b.other_index : ℚ) ∧
                  ((a.index : ℚ) ≤ (b.index : ℚ)))))))) := by
  unfold specsLe compareSpecs
  simp only [jsOr_nonpos_iff, sub_neg, sub_eq_zero, le_refl, and_true]
  rw [le_iff_lt_or_eq]

instance : IsTotal ParsedHeader specsLe := ⟨by
  intro a b
  rw [specsLe_iff, specsLe_iff]
  rcases lt_trichotomy b.quality a.quality with h1 | h1 | h1
  · exact Or.inl (Or.inl h1)
  · rcases lt_trichotomy (b.flags : ℚ) (a.flags : ℚ) with h2 | h2 | h2
    · exact Or.inl (Or.inr ⟨h1, Or.inl h2⟩)
    · rcases lt_trichotomy (a.other_index : ℚ) (b.other_index : ℚ) with h3 | h3 | h3
      · exact Or.inl (Or.inr ⟨h1, Or.inr ⟨h2, Or.inl h3⟩⟩)
      · rcases le_total (a.index : ℚ) (b.index : ℚ) with h4 | h4
        · exact Or.inl (Or.inr ⟨h1, Or.inr ⟨h2, Or.inr ⟨h3, h4⟩⟩⟩)
        · exact Or.inr (Or.inr ⟨h1.symm, Or.inr ⟨h2.symm, Or.inr ⟨h3.symm, h4⟩⟩⟩)
      · exact Or.inr (Or.inr ⟨h1.symm, Or.inr ⟨h2.symm, Or.inl h3⟩⟩)
    · exact Or.inr (Or.inr ⟨h1.symm, Or.inl h2⟩)
  · exact Or.inr (Or.inl h1)⟩

instance : IsTrans ParsedHeader specsLe := ⟨by
  intro a b c hab hbc
  rw [specsLe_iff] at hab hbc ⊢
  rcases hab with h1 | ⟨h1, h2 | ⟨h2, h3 | ⟨h3, h4⟩⟩⟩ <;>
    rcases hbc with g1 | ⟨g1, g2 | ⟨g2, g3 | ⟨g3, g4⟩⟩⟩ <;>
    first
      | exact Or.inl (by linarith)
      | exact Or.inr ⟨by linarith, Or.inl (by linarith)⟩
      | exact Or.inr ⟨by linarith, Or.inr ⟨by linarith, Or.inl (by linarith)⟩⟩
      | exact Or.inr ⟨by linarith, Or.inr ⟨by linarith, Or.inr ⟨by linarith, by linarith⟩⟩⟩⟩

theorem mnaWalk_visited_ge (m : String) (total : Nat) :
    ∀ (es : List Entry) (start skip : Nat),
      (∀ k (h : k < es.length), (es.get ⟨k, h⟩).idx = start + k) →
      ∀ j ∈ (mnaWalk m total es skip).2, start + skip ≤ j := by
  intro es
  induction es with
  | nil =>
    intro start skip hseq j hj
    simp [mnaWalk] at hj
  | cons e rest ih =>
    intro start skip hseq j hj
    have hidx : e.idx = start := by simpa using hseq 0 (by simp)
    have hseqr : ∀ k (h : k < rest.length), (rest.get ⟨k, h⟩).idx = (start + 1) + k := by
      intro k h
      have hk := hseq (k + 1) (by simpa using Nat.succ_lt_succ h)
      simp only [List.get_cons_succ] at hk
      rw [hk]
      omega
    by_cases hs : 0 < skip
    · rw [mnaWalk, if_pos hs] at hj
      have := ih (start + 1) (skip - 1) hseqr j hj
      omega
    · have hs0 : skip = 0 := by omega
      subst hs0
      by_cases hm : layerMethod e.layer_methods m
      · by_cases hc : 0 < e.length ∧ (e.idx : Int) + e.length < (total : Int)
        · rw [mnaWalk, if_neg (by omega), if_neg (by simp [hm]), if_pos hc] at hj
          simp only [List.mem_cons] at hj
          rcases hj with hj | hj
          · omega
          · have := ih (start + 1) e.length.toNat hseqr j hj
            omega
        · rw [mnaWalk, if_neg (by omega), if_neg (by simp [hm]), if_neg hc] at hj
          simp only [List.mem_cons] at hj
          rcases hj with hj | hj
          · omega
          · have := ih (start + 1) 0 hseqr j hj
            omega
      · rw [mnaWalk, if_neg (by omega), if_pos (by simp [hm])] at hj
        simp only [List.mem_singleton] at hj
        omega

theorem mnaWalk_tail_gen (m : String) (total : Nat) :
    ∀ (es : List Entry) (start skip : Nat),
      (∀ k (h : k < es.length), (es.get ⟨k, h⟩).idx = start + k) →
      ∀ (k : Nat) (hk : k < es.length),
        (es.get ⟨k, hk⟩).idx ∈ (mnaWalk m total es skip).2 →
        0 < (es.get ⟨k, hk⟩).length →
        ((es.get ⟨k, hk⟩).idx : Int) + (es.get ⟨k, hk⟩).length < (total : Int) →
        ∀ j ∈ (mnaWalk m total es skip).2,
          j ≤ (es.get ⟨k, hk⟩).idx ∨
            (es.get ⟨k, hk⟩).idx + (es.get ⟨k, hk⟩).length.toNat < j := by
  intro es
  induction es with
  | nil =>
    intro start skip hseq k hk
    exact absurd hk (by simp)
  | cons e rest ih =>
    intro start skip hseq k hk hvis hlen hcond j hj
    have hidx : e.idx = start := by simpa using hseq 0 (by simp)
    have hseqr : ∀ k2 (h : k2 < rest.length), (rest.get ⟨k2, h⟩).idx = (start + 1) + k2 := by
      intro k2 h
      have hk2 := hseq (k2 + 1) (by simpa using Nat.succ_lt_succ h)
      simp only [List.get_cons_succ] at hk2
      rw [hk2]
      omega
    by_cases hs : 0 < skip
    · rw [mnaWalk, if_pos hs] at hvis hj
      rcases Nat.eq_zero_or_pos k with hk0 | hkpos
      · subst hk0
        have hg0 : (e :: rest).get ⟨0, hk⟩ = e := rfl
        rw [hg0] at hvis
        have := mnaWalk_visited_ge m total rest (start + 1) (skip - 1) hseqr e.idx hvis
        omega
      · obtain ⟨k2, rfl⟩ : ∃ k2, k = k2 + 1 := ⟨k - 1, by omega⟩
        have hk2lt : k2 < rest.length := Nat.lt_of_succ_lt_succ hk
        have hgS : (e :: rest).get ⟨k2 + 1, hk⟩ = rest.get ⟨k2, hk2lt⟩ := rfl
        rw [hgS] at hvis hlen hcond ⊢
        exact ih (start + 1) (skip - 1) hseqr k2 hk2lt hvis hlen hcond j hj
    · have hs0 : skip = 0 := by omega
      subst hs0
      by_cases hm : layerMethod e.layer_methods m
      · by_cases hc : 0 < e.length ∧ (e.idx : Int) + e.length < (total : Int)
        · rw [mnaWalk, if_neg (by omega), if_neg (by simp [hm]), if_pos hc] at hvis hj
          simp only [List.mem_cons] at hj
          rcases Nat.eq_zero_or_pos k with hk0 | hkpos
          · subst hk0
            have hg0 : (e :: rest).get ⟨0, hk⟩ = e := rfl
            rw [hg0] at hlen ⊢
            rcases hj with hj | hj
            · omega
            · have := mnaWalk_visited_ge m total rest (start + 1) e.length.toNat hseqr j hj
              right
              omega
          · obtain ⟨k2, rfl⟩ : ∃ k2, k = k2 + 1 := ⟨k - 1, by omega⟩
            have hk2lt : k2 < rest.length := Nat.lt_of_succ_lt_succ hk
            have hgS : (e :: rest).get ⟨k2 + 1, hk⟩ = rest.get ⟨k2, hk2lt⟩ := rfl
            rw [hgS] at hvis hlen hcond ⊢
            simp only [List.mem_cons] at hvis
            have hidx2 := hseqr k2 hk2lt
            rcases hvis with hv0 | hvr
            · omega
            · rcases hj with hj | hj
              · left
                omega
              · exact ih (start + 1) e.length.toNat hseqr k2 hk2lt hvr hlen hcond j hj
        · rw [mnaWalk, if_neg (by omega), if_neg (by simp [hm]), if_neg hc] at hvis hj
          simp only [List.mem_cons] at hj
          rcases Nat.eq_zero_or_pos k with hk0 | hkpos
          · subst hk0
            have hg0 : (e :: rest).get ⟨0, hk⟩ = e := rfl
            rw [hg0] at hlen hcond
            exact absurd ⟨hlen, hcond⟩ hc
          · obtain ⟨k2, rfl⟩ : ∃ k2, k = k2 + 1 := ⟨k - 1, by omega⟩
            have hk2lt : k2 < rest.length := Nat.lt_of_succ_lt_succ hk
            have hgS : (e :: rest).get ⟨k2 + 1, hk⟩ = rest.get ⟨k2, hk2lt⟩ := rfl
            rw [hgS] at hvis hlen hcond ⊢
            simp only [List.mem_cons] at hvis
            have hidx2 := hseqr k2 hk2lt
            rcases hvis with hv0 | hvr
            · omega
            · rcases hj with hj | hj
              · left
                omega
              · exact ih (start + 1) 0 hseqr k2 hk2lt hvr hlen hcond j hj
      · rw [mnaWalk, if_neg (by omega), if_pos (by simp [hm])] at hvis hj
        simp only [List.mem_singleton] at hvis hj
        rcases Nat.eq_zero_or_pos k with hk0 | hkpos
        · subst hk0
          have hg0 : (e :: rest).get ⟨0, hk⟩ = e := rfl
          rw [hg0]
          left
          omega
        · obtain ⟨k2, rfl⟩ : ∃ k2, k = k2 + 1 := ⟨k - 1, by omega⟩
          have hk2lt : k2 < rest.length := Nat.lt_of_succ_lt_succ hk
          have hgS : (e :: rest).get ⟨k2 + 1, hk⟩ = rest.get ⟨k2, hk2lt⟩ := rfl
          rw [hgS] at hvis ⊢
          have hidx2 := hseqr k2 hk2lt
          omega

theorem layerMatch_star_case (dec : String → Option String) (cfg : LayerRec)
    (p pn : String) (cp : String) (hcp : cfg.path = some cp) (h1 : p ≠ "")
    (hstar : cfg.single_star = true)
    (hpn : pn = (if p.front = '/' then p else "/" ++ p)) :
    layerMatch dec cfg p = some [(Sum.inr 0, some (safeDecodeURIComponent dec pn))] := by
  by_cases hfr : p.front = '/' <;>
    simp [layerMatch, hcp, h1, hstar, hpn, hfr]


/-- C1: claim falsified at a concrete input.  A PATCH request against a
pipeline whose single layer accepts only POST: the union of declared
methods does not contain PATCH, and `method_not_allowed` writes status 405
with a body — but no `Allow` header is ever written (the response headers
stay empty), and under HTTP/1.0 the status written is 400, not 405. -/
theorem method_not_allowed_writes_405_without_allow_header :
    (method_not_allowed (runApp decNone postApp (baseCtx "PATCH"))).status = 405
    ∧ (method_not_allowed (runApp decNone postApp (baseCtx "PATCH"))).resHeaders = []
    ∧ (method_not_allowed (runApp decNone postApp (baseCtx "PATCH"))).body
        = some ("Method " ++ squote ++ "PATCH" ++ squote ++ " not allowed.")
    ∧ ¬ layerMethod cfgPost.methods "PATCH"
    ∧ (method_not_allowed (runApp decNone postApp
        { baseCtx "PATCH" with httpVersion := "1.0" })).status = 400 :=
  ⟨rfl, rfl, rfl, by decide, rfl⟩

/-- C2: claim falsified at a concrete input.  An OPTIONS request through the
same pipeline is not answered with status 200, an empty body and an
`Allow` header: `method_not_allowed` has no OPTIONS handling at all, falls
into the 405 logic, and writes status 405 with a non-empty body and no
response header. -/
theorem method_not_allowed_options_gets_405_not_200 :
    (method_not_allowed (runApp decNone postApp (baseCtx "OPTIONS"))).status = 405
    ∧ (method_not_allowed (runApp decNone postApp (baseCtx "OPTIONS"))).body
        = some ("Method " ++ squote ++ "OPTIONS" ++ squote ++ " not allowed.")
    ∧ (method_not_allowed (runApp decNone postApp (baseCtx "OPTIONS"))).resHeaders = [] :=
  ⟨rfl, rfl, rfl⟩

/-- C3: claim falsified at a concrete input.  A pipeline run in which the
single matching layer has a terminal handler (it never calls its
continuation): the trace ends with the matching entry still carrying
`length = -1` — the span is never finalized, because nothing after
`compose(this.stack)(ctx, ...)` runs in the source — so the sum over the
top-level entries of `1 + span` is 0, not the trace length 1. -/
theorem callback_terminal_handler_span_stays_unfinalized :
    (runApp decNone termApp (baseCtx "GET")).layers.map (fun e => (e.matched, e.length))
      = [(true, -1)]
    ∧ (runApp decNone termApp (baseCtx "GET")).layers.length = 1
    ∧ topSpanSum (runApp decNone termApp (baseCtx "GET")).layers = 0 := by
  refine ⟨rfl, rfl, ?_⟩
  have h : (runApp decNone termApp (baseCtx "GET")).layers
      = [{ accepted := some [], idx := 0, layer_methods := [], length := -1,
           matched := true, params := some [] }] := rfl
  rw [h]
  simp [topSpanSum.eq_def]

/-- C4: during the walk of `method_not_allowed`, any entry evaluated at the
top level (a member of the visited indices) whose `span` is positive and
whose subtree extends to the end of the recorded trace
(`idx + span = length - 1`) has its next `span` entries skipped: no
visited index lies strictly inside the interval `(idx, idx + span]`.  The
hypothesis `hseq` states that the trace is well-formed: each entry stores
its own position, as `callback` always records it. -/
theorem mna_walk_skips_subtree_reaching_trace_end (es : List Entry) (m : String)
    (hseq : ∀ k (h : k < es.length), (es.get ⟨k, h⟩).idx = k)
    (k : Nat) (hk : k < es.length)
    (hvis : (es.get ⟨k, hk⟩).idx ∈ (mnaWalk m es.length es 0).2)
    (hpos : 0 < (es.get ⟨k, hk⟩).length)
    (hend : (es.get ⟨k, hk⟩).idx + (es.get ⟨k, hk⟩).length.toNat = es.length - 1) :
    ∀ j ∈ (mnaWalk m es.length es 0).2,
      j ≤ (es.get ⟨k, hk⟩).idx ∨
        (es.get ⟨k, hk⟩).idx + (es.get ⟨k, hk⟩).length.toNat < j := by
  apply mnaWalk_tail_gen m es.length es 0 0
    (by intro k2 h; simpa using hseq k2 h) k hk hvis hpos
  omega

/-- C4 witness: the two-entry trace `[c4wE0, c4wE1]` checked for method POST;
entry 0 is visited, has span 1 reaching the end of the trace, and the
theorem applies, giving the (trivially satisfied) bound at index 0. -/
theorem mna_walk_skips_subtree_reaching_trace_end_witness :
    (([c4wE0, c4wE1] : List Entry).get ⟨0, by decide⟩).idx
        ∈ (mnaWalk "POST" ([c4wE0, c4wE1] : List Entry).length [c4wE0, c4wE1] 0).2
    ∧ ((0 : Nat) ≤ (([c4wE0, c4wE1] : List Entry).get ⟨0, by decide⟩).idx
        ∨ (([c4wE0, c4wE1] : List Entry).get ⟨0, by decide⟩).idx
            + (([c4wE0, c4wE1] : List Entry).get ⟨0, by decide⟩).length.toNat < 0) :=
  ⟨by decide,
    mna_walk_skips_subtree_reaching_trace_end [c4wE0, c4wE1] "POST"
      (by
        intro k h
        rcases k with _ | k
        · rfl
        · rcases k with _ | k
          · rfl
          · exfalso
            simp only [List.length_cons, List.length_nil] at h
            omega)
      0 (by decide) (by decide) (by decide) (by decide) 0 (by decide)⟩

/-- C5: for every combination of the `method` and `methods` constructor
options, GET in the resulting method set implies HEAD is in it, and a
`Layer#method` check for HEAD succeeds whenever the one for GET does. -/
theorem method_set_get_implies_head (mo : Option String) (mf : StrField) :
    ("GET" ∈ buildMethods mo mf → "HEAD" ∈ buildMethods mo mf)
    ∧ (layerMethod (buildMethods mo mf) "GET" = true →
        layerMethod (buildMethods mo mf) "HEAD" = true) := by
  obtain ⟨s, hs⟩ : ∃ s, buildMethods mo mf = (if s.contains "GET" then jsSetAdd s "HEAD" else s) :=
    ⟨_, rfl⟩
  have hmain : "GET" ∈ buildMethods mo mf → "HEAD" ∈ buildMethods mo mf := by
    intro hget
    rw [hs] at hget ⊢
    by_cases hc : s.contains "GET"
    · rw [if_pos hc]
      unfold jsSetAdd
      split_ifs with h2
      · exact h2
      · exact List.mem_append.mpr (Or.inr (by simp))
    · rw [if_neg hc] at hget
      exact absurd (List.elem_eq_true_of_mem hget) hc
  refine ⟨hmain, ?_⟩
  intro h
  unfold layerMethod at h ⊢
  rcases Bool.or_eq_true_iff.mp h with he | hc
  · rw [he]
    rfl
  · have hmem : "GET" ∈ buildMethods mo mf := List.mem_of_elem_eq_true hc
    have hhead := hmain hmem
    have hch : (buildMethods mo mf).contains "HEAD" = true := List.elem_eq_true_of_mem hhead
    rw [hch]
    simp

/-- C5 witness: `{ method: 'get' }` yields a method set containing GET, and
by the theorem it also contains HEAD. -/
theorem method_set_get_implies_head_witness :
    "GET" ∈ buildMethods (some "get") StrField.undef
    ∧ "HEAD" ∈ buildMethods (some "get") StrField.undef :=
  ⟨by decide, (method_set_get_implies_head (some "get") StrField.undef).1 (by decide)⟩

/-- C6: claim falsified at a concrete input.  A layer configured with
`accepts: ['text/html']` against a request whose Accept header offers only
`application/json`: negotiation yields zero acceptable types, yet the
layer records a matching trace entry (with the empty negotiation result)
and runs its handler stack — it does not behave like a mismatch, because
`accept()` always returns an array and the `if (!accepted)` guard can
never fire. -/
theorem empty_negotiation_still_matches_cex :
    accepts ctxJsonAccept.accept cfgHtmlOnly.laccepts = []
    ∧ (runApp decNone htmlOnlyApp ctxJsonAccept).layers.map (fun e => (e.matched, e.accepted))
        = [(true, some [])]
    ∧ (runApp decNone htmlOnlyApp ctxJsonAccept).body = some "handler ran" :=
  ⟨by decide, rfl, rfl⟩

/-- C6 (amended): whenever the method, conditional and path gates pass, the
layer appends a matching trace entry and runs its handler stack with the
wrapped continuation, regardless of the outcome of content negotiation —
`accept()` always returns an array (`layerAccept` is always `some`), so a
negotiation that yields zero acceptable types does not fall through to the
continuation. -/
theorem layer_matches_regardless_of_negotiation (dec : String → Option String)
    (cfg : LayerRec) (stack : MWList) (ctx : Ctx) (next : Ctx → Ctx)
    (ps : List (PKey × Option String))
    (hm : layerMethod cfg.methods ctx.method = true)
    (hcond : condPass cfg ctx = true)
    (hmatch : layerMatch dec cfg ctx.path = some ps) :
    ∃ accepted, layerAccept cfg.laccepts ctx.accept = some accepted ∧
      runMW dec (.layer cfg stack) ctx next =
        runStack dec stack
          { ctx with
            layers := ctx.layers ++
              [{ accepted := some accepted, idx := ctx.layers.length,
                 layer_methods := cfg.methods, length := -1, matched := true,
                 params := some ps }],
            params := mergeParams ctx.params ps }
          (fun c => next { c with
            layers := setEntryLength c.layers ctx.layers.length
              ((c.layers.length : Int) - (ctx.layers.length : Int) - 1) }) := by
  have hacc : ∃ acc, layerAccept cfg.laccepts ctx.accept = some acc := by
    unfold layerAccept
    split_ifs <;> exact ⟨_, rfl⟩
  obtain ⟨acc, hacc⟩ := hacc
  refine ⟨acc, hacc, ?_⟩
  simp only [runMW, hm, hcond, hmatch, hacc, not_true, ite_false]

/-- C6 witness: the gates of the `text/html`-only layer pass for the
`application/json` request, and the theorem instantiates to it. -/
theorem layer_matches_regardless_of_negotiation_witness :
    layerMethod cfgHtmlOnly.methods ctxJsonAccept.method = true
    ∧ condPass cfgHtmlOnly ctxJsonAccept = true
    ∧ layerMatch decNone cfgHtmlOnly ctxJsonAccept.path = some []
    ∧ ∃ accepted, layerAccept cfgHtmlOnly.laccepts ctxJsonAccept.accept = some accepted ∧
        runMW decNone
            (.layer cfgHtmlOnly (.cons (.handler (some "handler ran") none false) .nil))
            ctxJsonAccept (fun c => c) =
          runStack decNone (.cons (.handler (some "handler ran") none false) .nil)
            { ctxJsonAccept with
              layers := ctxJsonAccept.layers ++
                [{ accepted := some accepted, idx := ctxJsonAccept.layers.length,
                   layer_methods := cfgHtmlOnly.methods, length := -1, matched := true,
                   params := some [] }],
              params := mergeParams ctxJsonAccept.params [] }
            (fun c => (fun c => c) { c with
              layers := setEntryLength c.layers ctxJsonAccept.layers.length
                ((c.layers.length : Int) - (ctxJsonAccept.layers.length : Int) - 1) }) :=
  ⟨rfl, rfl, rfl,
    layer_matches_regardless_of_negotiation decNone cfgHtmlOnly
      (.cons (.handler (some "handler ran") none false) .nil) ctxJsonAccept
      (fun c => c) [] rfl rfl rfl⟩

/-- C7: claim falsified at a concrete input.  For the header
`application/json, text/html` against the offered set
`{text/html, application/json}`, both survivors tie on quality and flags,
but the result is not in offered order: the comparator breaks the tie on
the index of the matching accept-spec (`other_index`) before the offered
order, ranking `application/json` (offered index 1) first.  Hence the
result is not sorted by the ordering the claim describes. -/
theorem accepts_violates_offered_order_tie_break_cex :
    ¬ List.Pairwise specClaimedOrder
        (accepts [exJsonA, exHtmlB] [("text", "html"), ("application", "json")]) := by
  decide

/-- C7 (amended): the negotiation result consists of exactly the offered
types with effective quality greater than 0 (a permutation of the
quality-filtered prioritised candidates), sorted by quality descending,
then flag-specificity descending, then matching accept-spec index
ascending, then original offered order ascending; and the header
`text/html;q=0.8, application/json` against the offered set
`{application/json, text/html}` ranks `application/json` first. -/
theorem accepts_exact_survivors_sorted_by_comparator (accepted : List ParsedHeader)
    (provided : List (String × String)) :
    List.Perm (accepts accepted provided)
      ((provided.enum.map (fun ip => priority (parseItemOffered ip.2 ip.1) accepted)).filter
        (fun p => isQuality p))
    ∧ List.Pairwise
        (fun a b =>
          b.quality < a.quality ∨
            (b.quality = a.quality ∧
              ((b.flags : ℚ) < (a.flags : ℚ) ∨
                ((b.flags : ℚ) = (a.flags : ℚ) ∧
                  ((a.other_index : ℚ) < (b.other_index : ℚ) ∨
                    ((a.other_index : ℚ) = (b.other_index : ℚ) ∧
                      ((a.index : ℚ) ≤ (b.index : ℚ))))))))
        (accepts accepted provided)
    ∧ (accepts [exHtml08, exJson1] [("application", "json"), ("text", "html")]).map
        (fun p => p.full_type) = ["application/json", "text/html"] := by
  refine ⟨List.perm_insertionSort _ _, ?_, by decide⟩
  have hs := List.sorted_insertionSort specsLe
    ((provided.enum.map (fun ip => priority (parseItemOffered ip.2 ip.1) accepted)).filter
      (fun p => isQuality p))
  exact hs.imp (fun hab => (specsLe_iff _ _).mp hab)

/-- C8: for every decoder behaviour and every pattern and path, (a) whether
the match succeeds is independent of the decoder — decoding failure never
aborts a match — and the decoding step is a total function (it cannot
throw in the model); (b) `safeDecodeURIComponent` returns the decoded
string when decoding succeeds and the raw component unchanged when it
fails; and (c) every extracted parameter value is either an absent or
empty capture kept verbatim, or `safeDecodeURIComponent` of a raw
captured string (the normalized path itself for the `*` fast path, or a
regexp capture). -/
theorem match_params_decoded_or_raw_and_decode_never_fails
    (dec dec2 : String → Option String) (cfg : LayerRec) (p : String) :
    ((layerMatch dec cfg p).isSome ↔ (layerMatch dec2 cfg p).isSome)
    ∧ (∀ c s, dec c = some s → safeDecodeURIComponent dec c = s)
    ∧ (∀ c, dec c = none → safeDecodeURIComponent dec c = c)
    ∧ (∀ ps, layerMatch dec cfg p = some ps → ∀ kv ∈ ps,
        kv.2 = none ∨ kv.2 = some "" ∨
        ∃ raw, (raw = (if p.front = '/' then p else "/" ++ p) ∨
                 some raw ∈ cfg.rexec (if p.front = '/' then p else "/" ++ p)) ∧
          kv.2 = some (safeDecodeURIComponent dec raw)) := by
  refine ⟨?_, ?_, ?_, ?_⟩
  · rcases hcp : cfg.path with _ | cp
    · simp [layerMatch, hcp]
    · simp only [layerMatch, hcp]
      split_ifs <;> simp
  · intro c s h
    simp [safeDecodeURIComponent, h]
  · intro c h
    simp [safeDecodeURIComponent, h]
  · intro ps hps kv hkv
    rcases hcp : cfg.path with _ | cp
    · simp only [layerMatch, hcp] at hps
      obtain rfl : ([] : List (PKey × Option String)) = ps := Option.some.inj hps
      simp at hkv
    · by_cases h1 : p = ""
      · simp [layerMatch, hcp, h1] at hps
      · by_cases hstar : cfg.single_star
        · rw [layerMatch_star_case dec cfg p _ cp hcp h1 hstar rfl] at hps
          obtain rfl := Option.some.inj hps
          simp only [List.mem_singleton] at hkv
          subst hkv
          exact Or.inr (Or.inr ⟨_, Or.inl rfl, rfl⟩)
        · by_cases hfr : p.front = '/'
          · by_cases htest : cfg.rtest p
            · by_cases hnp : cfg.no_params
              · simp [layerMatch, hcp, h1, hstar, hfr, htest, hnp] at hps
                subst hps
                simp at hkv
              · simp [layerMatch, hcp, h1, hstar, hfr, htest, hnp, Option.some.injEq] at hps
                subst hps
                simp only [List.mem_map] at hkv
                obtain ⟨kc, hkcmem, rfl⟩ := hkv
                rcases hc2 : kc.2 with _ | cap
                · exact Or.inl (by simp [hc2])
                · by_cases hcap : cap = ""
                  · subst hcap
                    exact Or.inr (Or.inl (by simp [hc2]))
                  · refine Or.inr (Or.inr ⟨cap, Or.inr ?_, by simp [hc2, hcap, hfr]⟩)
                    have hmem := (List.of_mem_zip hkcmem).2
                    rw [hc2] at hmem
                    simpa [hfr] using hmem
            · simp [layerMatch, hcp, h1, hstar, hfr, htest] at hps
          · by_cases htest : cfg.rtest ("/" ++ p)
            · by_cases hnp : cfg.no_params
              · simp [layerMatch, hcp, h1, hstar, hfr, htest, hnp] at hps
                subst hps
                simp at hkv
              · simp [layerMatch, hcp, h1, hstar, hfr, htest, hnp, Option.some.injEq] at hps
                subst hps
                simp only [List.mem_map] at hkv
                obtain ⟨kc, hkcmem, rfl⟩ := hkv
                rcases hc2 : kc.2 with _ | cap
                · exact Or.inl (by simp [hc2])
                · by_cases hcap : cap = ""
                  · subst hcap
                    exact Or.inr (Or.inl (by simp [hc2]))
                  · refine Or.inr (Or.inr ⟨cap, Or.inr ?_, by simp [hc2, hcap, hfr]⟩)
                    have hmem := (List.of_mem_zip hkcmem).2
                    rw [hc2] at hmem
                    simpa [hfr] using hmem
            · simp [layerMatch, hcp, h1, hstar, hfr, htest] at hps

/-- C8 witness: a decoder that throws on a malformed escape leaves the
component unchanged, by part (b) of the theorem. -/
theorem match_params_decoded_or_raw_and_decode_never_fails_witness :
    decNone "a%" = none ∧ safeDecodeURIComponent decNone "a%" = "a%" :=
  ⟨rfl,
    (match_params_decoded_or_raw_and_decode_never_fails decNone decNone cfgAny "/x").2.2.1
      "a%" rfl⟩

/-- C9: claim falsified at a concrete input.  Constructing a layer whose
`handlers` iterable contains a non-callable entry does not raise: the
collection loop silently skips every value whose `typeof` is not
`function`, so the validation loop sees an empty stack and the
constructor returns normally. -/
theorem constructor_silently_drops_non_callable_cex :
    mkStack none (.iter [JsVal.other "number"]) = Except.ok [] := rfl

/-- C9 (amended): the constructor never raises for non-callable entries in
the `handler` or `handlers` options: those entries are silently dropped
while collecting, every collected entry is a function, and the validation
loop therefore always passes. -/
theorem constructor_never_throws_filters_non_callables (handler : Option JsVal)
    (handlers : HandlersField) :
    mkStack handler handlers = Except.ok (collectStack handler handlers)
    ∧ ∀ v ∈ collectStack handler handlers, v.isFn = true := by
  have hall : ∀ v ∈ collectStack handler handlers, v.isFn = true := by
    intro v hv
    unfold collectStack at hv
    rcases handler with _ | h0 <;> rcases handlers with _ | sv | items
    · simp at hv
    · by_cases hfs : sv.isFn = true
      · simp only [hfs, if_true, List.nil_append, List.mem_singleton] at hv
        subst hv
        exact hfs
      · simp [hfs] at hv
    · simp only [List.nil_append, List.mem_filter] at hv
      exact hv.2
    · by_cases hf0 : h0.isFn = true
      · simp only [hf0, if_true, List.mem_singleton] at hv
        subst hv
        exact hf0
      · simp [hf0] at hv
    · by_cases hf0 : h0.isFn = true <;> by_cases hfs : sv.isFn = true
      · simp only [hf0, hfs, if_true, List.mem_append, List.mem_singleton] at hv
        rcases hv with rfl | rfl
        · exact hf0
        · exact hfs
      · simp only [hf0, hfs, if_true] at hv
        simp only [Bool.false_eq_true, if_false, List.mem_singleton] at hv
        subst hv
        exact hf0
      · simp only [hf0] at hv
        simp only [Bool.false_eq_true, if_false, hfs, if_true, List.nil_append,
          List.mem_singleton] at hv
        subst hv
        exact hfs
      · simp [hf0, hfs] at hv
    · rw [List.mem_append] at hv
      rcases hv with hv | hv
      · by_cases hf0 : h0.isFn = true
        · simp only [hf0, if_true, List.mem_singleton] at hv
          subst hv
          exact hf0
        · simp [hf0] at hv
      · exact (List.mem_filter.mp hv).2
  refine ⟨?_, hall⟩
  unfold mkStack
  rw [if_pos (List.all_eq_true.mpr hall)]

/-- C9 witness: a function handler together with a non-callable entry in the
iterable: construction succeeds with only the function collected, and the
collected entry is a function. -/
theorem constructor_never_throws_filters_non_callables_witness :
    mkStack (some (JsVal.fn 1)) (.iter [JsVal.other "number"])
        = Except.ok (collectStack (some (JsVal.fn 1)) (.iter [JsVal.other "number"]))
    ∧ (JsVal.fn 1).isFn = true :=
  ⟨(constructor_never_throws_filters_non_callables (some (JsVal.fn 1))
      (.iter [JsVal.other "number"])).1,
    (constructor_never_throws_filters_non_callables (some (JsVal.fn 1))
      (.iter [JsVal.other "number"])).2 (JsVal.fn 1) (by decide)⟩

/-- C10: `use` appends the supplied handles exactly when every handle is a
function whose declared arity is 1 or 2 (the source condition
`handle.length > 0 && handle.length < 3` on naturals); when any handle
fails the check the stack is returned completely unchanged, and the
function always returns normally. -/
theorem use_appends_only_when_all_handles_valid (stack handles : List JsVal) :
    ((∀ h ∈ handles, h.isFn = true ∧ (h.jsLength = 1 ∨ h.jsLength = 2)) →
      use stack handles = stack ++ handles)
    ∧ ((∃ h ∈ handles, ¬(h.isFn = true ∧ (h.jsLength = 1 ∨ h.jsLength = 2))) →
      use stack handles = stack) := by
  constructor
  · intro hall
    unfold use
    rw [if_pos]
    rw [List.all_eq_true]
    intro h hmem
    obtain ⟨hf, ha⟩ := hall h hmem
    simp only [hf, Bool.true_and, Bool.and_eq_true, decide_eq_true_eq]
    omega
  · rintro ⟨h, hmem, hbad⟩
    unfold use
    rw [if_neg]
    intro hcontra
    rw [List.all_eq_true] at hcontra
    have hh := hcontra h hmem
    simp only [Bool.and_eq_true, decide_eq_true_eq] at hh
    exact hbad ⟨hh.1.1, by omega⟩

/-- C10 witness: two valid handles are appended; a handle of arity 3 leaves
the stack untouched. -/
theorem use_appends_only_when_all_handles_valid_witness :
    use [JsVal.fn 2] [JsVal.fn 1, JsVal.fn 2] = [JsVal.fn 2] ++ [JsVal.fn 1, JsVal.fn 2]
    ∧ use [JsVal.fn 2] [JsVal.fn 3] = [JsVal.fn 2] :=
  ⟨(use_appends_only_when_all_handles_valid [JsVal.fn 2] [JsVal.fn 1, JsVal.fn 2]).1
      (by decide),
    (use_appends_only_when_all_handles_valid [JsVal.fn 2] [JsVal.fn 3]).2
      ⟨JsVal.fn 3, by decide, by decide⟩⟩
